import Mathlib

/-!
Shallow embedding of the Huffman encoder from `src/huffman.c`,
`src/huffman_vlad.c` and `src/huffman_t2_clock.c`.

Conventions of the embedding:
* C `char` symbols are modelled as `Nat` (the array index `(int)data[i]`);
  code bit characters `'0'`/`'1'` are modelled as `Char`.
* `struct MinHeapNode` values are modelled by the inductive `HTree`; every
  node the C code ever creates has either both children (`newNode` followed
  by assigning `left`/`right` in `buildHuffmanTree`) or none (`newNode`
  alone), which is exactly the two constructors below.
* The min-heap `struct MinHeap { size; array[...] }` is modelled as the
  list of its live elements `array[0..size)`.
* Fallible spots (extracting from an empty heap, exhausting the static node
  arena) are modelled with `Option`; in the C source those spots are
  undefined behaviour (reading an uninitialized pointer, writing out of
  bounds), not defined errors.
-/

namespace HuffmanC

/-- A node of the Huffman tree (`struct MinHeapNode`): symbol value
(`char data`), weight (`unsigned freq`) and, for internal nodes, the two
children set by `buildHuffmanTree` (internal nodes carry the placeholder
symbol `'$'` = 36). -/
inductive HTree where
  | leaf (data : Nat) (freq : Nat)
  | node (data : Nat) (freq : Nat) (left : HTree) (right : HTree)
deriving Repr, DecidableEq, Inhabited

/-- Field access `node->data`. -/
def HTree.data : HTree → Nat
  | .leaf d _ => d
  | .node d _ _ _ => d

/-- Field access `node->freq`. -/
def HTree.freq : HTree → Nat
  | .leaf _ f => f
  | .node _ f _ _ => f

/-- Field access `node->left` (`none` models a NULL pointer). -/
def HTree.left : HTree → Option HTree
  | .leaf _ _ => none
  | .node _ _ l _ => some l

/-- Field access `node->right` (`none` models a NULL pointer). -/
def HTree.right : HTree → Option HTree
  | .leaf _ _ => none
  | .node _ _ _ r => some r

/-- Heap array read `minHeap->array[i]` (in-bounds in all reachable C
states; the default is irrelevant). -/
def aget (hs : List HTree) (i : Nat) : HTree :=
  hs.getD i (HTree.leaf 0 0)

/-- Comparison used by the heap of `huffman_vlad.c` and
`huffman_t2_clock.c`: `a->freq < b->freq` (weight only). -/
def nodeLT (a b : HTree) : Bool :=
  a.freq < b.freq

/-- Comparison used by `minHeapify` in `huffman.c`: weight first, and on
equal weights the smaller `data` symbol wins
(`freq < freq || (freq == freq && data < data)`). -/
def nodeLTData (a b : HTree) : Bool :=
  a.freq < b.freq || (a.freq == b.freq && a.data < b.data)

/-- `swapMinHeapNode(&minHeap->array[i], &minHeap->array[j])`. -/
def swapMinHeapNode (hs : List HTree) (i j : Nat) : List HTree :=
  (hs.set i (aget hs j)).set j (aget hs i)

/-- The index `smallest` computed at the top of `minHeapify`: start from
`idx`, move to `left = 2*idx+1` and then `right = 2*idx+2` whenever that
child is in range and compares smaller. -/
def smallestIdx (lt : HTree → HTree → Bool) (hs : List HTree) (idx : Nat) : Nat :=
  let left := 2 * idx + 1
  let right := 2 * idx + 2
  let s1 := if left < hs.length ∧ lt (aget hs left) (aget hs idx) = true then left else idx
  if right < hs.length ∧ lt (aget hs right) (aget hs s1) = true then right else s1

/-- The recursion of `minHeapify`, with explicit structural fuel: if the
smallest of node and in-range children is a child, swap and continue
there (`if (smallest != idx) { swap; minHeapify(smallest); }`).  The child
index `smallest` is strictly larger than `idx` and below `hs.length` at
every recursive call, so at most `hs.length` calls ever happen and the
zero-fuel branch is unreachable from `minHeapify` below, which passes
`hs.length + 1`. -/
def minHeapifyF (lt : HTree → HTree → Bool) :
    Nat → List HTree → Nat → List HTree
  | 0, hs, _ => hs
  | fuel + 1, hs, idx =>
      if smallestIdx lt hs idx = idx then hs
      else
        minHeapifyF lt fuel (swapMinHeapNode hs (smallestIdx lt hs idx) idx)
          (smallestIdx lt hs idx)

/-- `minHeapify(minHeap, idx)`. -/
def minHeapify (lt : HTree → HTree → Bool) (hs : List HTree) (idx : Nat) : List HTree :=
  minHeapifyF lt (hs.length + 1) hs idx

/-- `extractMin(minHeap)`: return `array[0]`, move `array[size-1]` to the
root, shrink the heap and re-heapify from the root.  On an empty heap the C
code reads an uninitialized `array[0]` and lets the unsigned `size`
underflow — undefined behaviour, modelled as `none`. -/
def extractMin (lt : HTree → HTree → Bool) (hs : List HTree) :
    Option (HTree × List HTree) :=
  match hs with
  | [] => none
  | a :: tl =>
      some (a, minHeapify lt (((a :: tl).set 0 (aget (a :: tl) tl.length)).dropLast) 0)

/-- The sift-up loop of `insertMinHeap`, with explicit structural fuel:
`i` is the hole index; while the parent `(i-1)/2` is strictly heavier than
the inserted node, move the parent down into the hole; finally store the
node (`array[i] = minHeapNode`).  All three C variants compare `freq` only
here.  The hole index strictly decreases, so fuel `i + 1` (what
`insertMinHeap` passes) is always enough and the zero-fuel branch is
unreachable; it stores the node like the loop exit does. -/
def siftUpF : Nat → List HTree → Nat → HTree → List HTree
  | 0, hs, i, node => hs.set i node
  | fuel + 1, hs, i, node =>
      if i ≠ 0 ∧ node.freq < (aget hs ((i - 1) / 2)).freq then
        siftUpF fuel (hs.set i (aget hs ((i - 1) / 2))) ((i - 1) / 2) node
      else hs.set i node

/-- `insertMinHeap(minHeap, minHeapNode)`: grow the array by one slot and
sift the new node up from position `size - 1`. -/
def insertMinHeap (hs : List HTree) (node : HTree) : List HTree :=
  siftUpF (hs.length + 1) (hs ++ [node]) hs.length node

/-- The descending loop of `buildMinHeap`: heapify positions `i, i-1, …, 0`. -/
def buildMinHeapAux (lt : HTree → HTree → Bool) (hs : List HTree) : Nat → List HTree
  | 0 => minHeapify lt hs 0
  | i + 1 => buildMinHeapAux lt (minHeapify lt hs (i + 1)) i

/-- `buildMinHeap(minHeap)`: `for (i = (n-1)/2; i >= 0; --i) minHeapify(i)`
with `n = size - 1` and C signed division truncating toward zero, so the
loop starts at `(size-2)/2` (which is `0` when `size = 1`) and is skipped
entirely when `size = 0`. -/
def buildMinHeap (lt : HTree → HTree → Bool) (hs : List HTree) : List HTree :=
  match hs with
  | [] => []
  | _ :: _ => buildMinHeapAux lt hs ((hs.length - 2) / 2)

/-- `createAndBuildMinHeap(minHeap, data, freq, size)`: one leaf per
`(data[i], freq[i])` pair, then establish the heap invariant. -/
def createAndBuildMinHeap (lt : HTree → HTree → Bool)
    (data freqs : List Nat) : List HTree :=
  buildMinHeap lt ((data.zip freqs).map fun p => HTree.leaf p.1 p.2)

/-- The `while (minHeap.size > 1)` loop of `buildHuffmanTree` followed by
the final `extractMin`: repeatedly extract the two minima, merge them under
a fresh internal node (`'$'` = 36, weight = sum) and re-insert.  Each
iteration shrinks the heap by exactly one element, so the fuel
`hs.length + 1` passed by `buildHuffmanTree` can never run out (the
zero-fuel `none` is unreachable there). -/
def buildLoopF (lt : HTree → HTree → Bool) : Nat → List HTree → Option HTree
  | 0, _ => none
  | fuel + 1, hs =>
      if 1 < hs.length then
        match extractMin lt hs with
        | none => none
        | some (left, hs1) =>
          match extractMin lt hs1 with
          | none => none
          | some (right, hs2) =>
            buildLoopF lt fuel
              (insertMinHeap hs2 (HTree.node 36 (left.freq + right.freq) left right))
      else
        (extractMin lt hs).map (·.1)

/-- `buildHuffmanTree(data, freq, size)` of `huffman_vlad.c` /
`huffman_t2_clock.c` / `huffman.c`: build the heap of leaves, run the merge
loop, return the last remaining node. -/
def buildHuffmanTree (lt : HTree → HTree → Bool) (data freqs : List Nat) :
    Option HTree :=
  buildLoopF lt ((data.zip freqs).length + 1) (createAndBuildMinHeap lt data freqs)

/-- One step `freq[data[i]]++` of the frequency loops (frequency tables are
modelled as total functions `Nat → Nat`, zero outside the touched range,
matching the zero-initialized `int freq[MAX_CHAR]`). -/
def freqStep (f : Nat → Nat) (c : Nat) : Nat → Nat :=
  Function.update f c (f c + 1)

/-- `calculateFrequency(data, freq, size)` of `huffman.c` (also the inline
counting loop of `HuffmanCodes` in `huffman_vlad.c`): one pass of
`freq[data[i]]++` over the whole input. -/
def calculateFrequency (data : List Nat) (freq : Nat → Nat) : Nat → Nat :=
  data.foldl freqStep freq

/-- The chunk loop of `calculateFrequencyInChunks`, with explicit
structural fuel: count `freq[data[i]]++` over the window
`[start, min(start+chunkSize, size))`, then advance `start += chunkSize`
(here: drop the counted prefix).  For `chunkSize ≥ 1` each round removes
at least one element, so fuel `data.length` (what the wrapper passes)
always suffices.  With `chunkSize = 0` and a nonempty input the C loop
never advances (`start += 0`) and does not terminate; the model is only
meaningful for `chunkSize ≥ 1`, which is all the specification claims. -/
def calculateFrequencyInChunksF :
    Nat → List Nat → (Nat → Nat) → Nat → (Nat → Nat)
  | 0, _, freq, _ => freq
  | fuel + 1, data, freq, chunkSize =>
      if data = [] ∨ chunkSize = 0 then freq
      else
        calculateFrequencyInChunksF fuel (data.drop chunkSize)
          ((data.take chunkSize).foldl freqStep freq) chunkSize

/-- `calculateFrequencyInChunks(data, freq, size, chunkSize)` of
`huffman_t2_clock.c`. -/
def calculateFrequencyInChunks (data : List Nat) (freq : Nat → Nat)
    (chunkSize : Nat) : Nat → Nat :=
  calculateFrequencyInChunksF data.length data freq chunkSize

/-- The unique-symbol collection loop of `HuffmanCodes`
(`for i < MAX_CHAR: if (freq[i] > 0) uniqueData[uniqueSize] = i`);
`maxChar` is 256 in `huffman.c` / `huffman_vlad.c` and 128 in
`huffman_t2_clock.c`. -/
def uniqueSymbols (maxChar : Nat) (freq : Nat → Nat) : List Nat :=
  (List.range maxChar).filter fun i => 0 < freq i

/-- The matching `uniqueFreq[uniqueSize] = freq[i]` entries. -/
def uniqueFreqs (maxChar : Nat) (freq : Nat → Nat) : List Nat :=
  (uniqueSymbols maxChar freq).map freq

/-- `generateCodes(root, code, top, codes)` of `huffman_vlad.c`: descend
left with `'0'` appended, then right with `'1'` appended, and at a leaf
store the accumulated path with `strcpy(codes[root->data], code)` — a later
write to the same symbol overwrites an earlier one, exactly like `strcpy`
into the `codes` array.  The code table is the function
`codes : Nat → List Char` (all rows empty at the start, matching the
zero-initialized `char codes[MAX_CHAR][MAX_TREE_HT]`). -/
def generateCodes : HTree → List Char → (Nat → List Char) → (Nat → List Char)
  | .leaf d _, code, codes => Function.update codes d code
  | .node _ _ l r, code, codes =>
      generateCodes r (code ++ ['1']) (generateCodes l (code ++ ['0']) codes)

/-- The code table produced for a finished tree: `generateCodes(root, code,
0, codes)` started on the zeroed `codes` array. -/
def codeTable (t : HTree) : Nat → List Char :=
  generateCodes t [] fun _ => []

/-- The bit stream emitted by `compressInput(input, size, codes,
compressed)` of `huffman_t2_clock.c`: for each input symbol in order,
append the characters of its code row (an empty row appends nothing). -/
def compressBits (input : List Nat) (codes : Nat → List Char) : List Char :=
  input.foldl (fun acc c => acc ++ codes c) []

/-- `compressInput(input, codes, compressed)` of `huffman_vlad.c`: the loop
runs `for (i = 0; input[i] != '\0'; ++i) strcat(compressed, codes[input[i]])`,
so it stops at the first NUL byte of the input, not at the declared size.
The end of the modelled list stands for the terminator just past the data;
if the actual C buffer had no NUL in range the loop would read out of
bounds. -/
def compressInputVlad (input : List Nat) (codes : Nat → List Char) : List Char :=
  match input with
  | [] => []
  | c :: rest => if c = 0 then [] else codes c ++ compressInputVlad rest codes

/-- `binary_to_char(binary)`: read eight `'0'`/`'1'` characters, MSB first
(`value = value * 2 + (binary[i] - '0')`).  The value is returned as `Nat`;
for bit characters it is below 256, so the C cast to `char` is the
identity on the byte value. -/
def binary_to_char (binary : List Char) : Nat :=
  (binary.take 8).foldl (fun value c => value * 2 + (c.toNat - 48)) 0

/-- `convertToAscii(compressed)` of both `huffman_vlad.c` and
`huffman_t2_clock.c`: compute `padded_length = ((length+7)/8)*8`, write
`padding = padded_length - length` many `'0'` characters at the START of
`padded_data` (`memset(padded_data, '0', padding)`), copy the compressed
bit string AFTER them (`strcpy(padded_data + padding, compressed)`), then
emit one byte per 8-character group. -/
def convertToAscii (compressed : List Char) : List Nat :=
  let length := compressed.length
  let padded_length := (length + 7) / 8 * 8
  let padding := padded_length - length
  let padded_data := List.replicate padding '0' ++ compressed
  (List.range (padded_length / 8)).map fun i => binary_to_char (padded_data.drop (8 * i))

/-- Grouping of an (8-divisible) bit-character string into bytes, MSB
first; the reference form the spec-side packers below are built from.
A final group of fewer than 8 characters (never produced by the padded
packers) is discarded. -/
def group8 : List Char → List Nat
  | b0 :: b1 :: b2 :: b3 :: b4 :: b5 :: b6 :: b7 :: rest =>
      binary_to_char [b0, b1, b2, b3, b4, b5, b6, b7] :: group8 rest
  | _ => []

/-- Modelled from the spec: "Pad the total bit count up to the next
multiple of 8 by appending '0' bits at the end (low-order padding — NOT
interspersed, NOT prepended)", then group into 8-bit bytes MSB first. -/
def packTrailing (bits : List Char) : List Nat :=
  group8 (bits ++ List.replicate ((8 - bits.length % 8) % 8) '0')

/-- The amended padding discipline actually implemented by
`convertToAscii`: pad by PREPENDING '0' bits at the start (the first
byte is zero-padded on its high-order bits), then group into 8-bit bytes
MSB first. -/
def packLeading (bits : List Char) : List Nat :=
  group8 (List.replicate ((8 - bits.length % 8) % 8) '0' ++ bits)

/-- The weight heap invariant of `struct MinHeap`: every in-range child is
at least as heavy as its parent (the property `buildMinHeap`/`minHeapify`
maintain through `freq` comparisons). -/
def isMinHeap (hs : List HTree) : Bool :=
  (List.range hs.length).all fun i =>
    (decide (hs.length ≤ 2 * i + 1) ||
      decide ((aget hs i).freq ≤ (aget hs (2 * i + 1)).freq)) &&
    (decide (hs.length ≤ 2 * i + 2) ||
      decide ((aget hs i).freq ≤ (aget hs (2 * i + 2)).freq))

/-- `isLeaf(root)`: `!(root->left) && !(root->right)`. -/
def isLeaf : HTree → Bool
  | .leaf _ _ => true
  | .node _ _ _ _ => false

/-- The `(data, freq)` pairs of the leaves of a tree, left to right. -/
def leaves : HTree → List (Nat × Nat)
  | .leaf d f => [(d, f)]
  | .node _ _ l r => leaves l ++ leaves r

/-- Weight wellformedness: every internal node weighs exactly the sum of
its two children. -/
def wellFormed : HTree → Bool
  | .leaf _ _ => true
  | .node _ w l r => (w == l.freq + r.freq) && wellFormed l && wellFormed r

/-- `LeafPathOf t p s`: following the bit characters of `p` from the root
of `t` (`'0'` = left child, `'1'` = right child) ends at a leaf carrying
symbol `s`. -/
inductive LeafPathOf : HTree → List Char → Nat → Prop where
  | leaf (d f : Nat) : LeafPathOf (.leaf d f) [] d
  | goLeft (d f : Nat) {l r : HTree} {p : List Char} {s : Nat} :
      LeafPathOf l p s → LeafPathOf (.node d f l r) ('0' :: p) s
  | goRight (d f : Nat) {l r : HTree} {p : List Char} {s : Nat} :
      LeafPathOf r p s → LeafPathOf (.node d f l r) ('1' :: p) s

/-- NUL, the content of untouched cells of the zero-initialized static
`char` buffers. -/
def nul : Char := Char.ofNat 0

/-- Write `buf[i] = c` into a zero-initialized `char` buffer.  The buffer
is modelled as the list of its cells up to the highest position ever
written; cells beyond the list hold NUL. -/
def bufSet (buf : List Char) (i : Nat) (c : Char) : List Char :=
  if i < buf.length then buf.set i c
  else buf ++ List.replicate (i - buf.length) nul ++ [c]

/-- `strlen` on the modelled buffer: length of the prefix before the first
NUL cell. -/
def strlenBuf (buf : List Char) : Nat :=
  (buf.takeWhile fun c => c ≠ nul).length

/-- The C-string content of the buffer: the prefix before the first NUL
cell (what `strlen`-based readers such as `convertToAscii` consume). -/
def cstr (buf : List Char) : List Char :=
  buf.takeWhile fun c => c ≠ nul

/-- The write loop of `compressInput` in `huffman_t2_clock.c`:
`compressed[bitIndex++] = …` stores the emitted bit characters one by one
over the persistent static buffer; cells past the written prefix keep
whatever a previous call left there. -/
def writeBits (buf : List Char) (i : Nat) : List Char → List Char
  | [] => buf
  | c :: rest => writeBits (bufSet buf i c) (i + 1) rest

/-- `compressInput(data, size, codes, compressed)` of `huffman_t2_clock.c`
acting on the static `compressed` buffer, starting at `bitIndex = 0`. -/
def compressInputT2 (input : List Nat) (codes : Nat → List Char)
    (buf : List Char) : List Char :=
  writeBits buf 0 (compressBits input codes)

/-- The EOF-append loop of `HuffmanCodes` in `huffman_t2_clock.c`:
`compressed[strlen(compressed)] = codes[EOF_CHAR][j]`, one character per
iteration, each stored at the then-current string length. -/
def appendAtStrlen (buf : List Char) : List Char → List Char
  | [] => buf
  | c :: rest => appendAtStrlen (bufSet buf (strlenBuf buf) c) rest

/-- The iterative `generateCodes(root, codes)` of `huffman_t2_clock.c` as
a step machine over its loop state: explicit `stack` (bottom first, the C
`stack[0..stackTop)`), path array `arr` (the C `arr[0..top)`; `stackTop`
and `top` move in lockstep), the PERSISTENT static `visited` array, and
`current`.  `current = some c` performs one push of the inner
`while (current)` descent; `current = none` performs the body after it:
peek `stack[stackTop-1]`, either turn right (mark `visited[stackTop-1]`,
set `arr[top-1] = 1`) or pop, storing `codes[data] = arr + '0'` at a leaf.
The fuel only guards Lean totality; the C loop terminates whenever the
model does, and `none` (fuel exhausted) is never produced for the runs
proved below. -/
def gcLoop (fuel : Nat) (stack : List HTree) (arr : List Nat)
    (visited : Nat → Bool) (current : Option HTree)
    (codes : Nat → List Char) : Option ((Nat → List Char) × (Nat → Bool)) :=
  match fuel with
  | 0 => none
  | fuel + 1 =>
    match current with
    | some c => gcLoop fuel (stack ++ [c]) (arr ++ [0]) visited c.left codes
    | none =>
      match stack with
      | [] => some (codes, visited)
      | _ :: _ =>
        let c := stack.getLastD (HTree.leaf 0 0)
        if c.right ≠ none ∧ visited (stack.length - 1) = false then
          gcLoop fuel stack (arr.set (arr.length - 1) 1)
            (Function.update visited (stack.length - 1) true) c.right codes
        else
          gcLoop fuel stack.dropLast arr.dropLast visited none
            (if isLeaf c then
              Function.update codes c.data
                (arr.dropLast.map fun b => Char.ofNat (b + 48))
            else codes)

/-- Traversal fuel for `gcLoop`; ample for every tree the embedded runs
touch. -/
def gcFuel : Nat := 100000

/-- The persistent static state of `huffman_t2_clock.c` that survives one
`HuffmanCodes` call and is visible to the next: the node-arena cursor
`nodeIndex` (never reset), the `codes` rows, the `compressed` buffer and
the `visited` array (`freq` is `memset` at every call and the remaining
statics are fully rewritten before being read). -/
structure T2State where
  nodeIndex : Nat
  codes : Nat → List Char
  compressed : List Char
  visited : Nat → Bool

/-- The process-start contents of the static buffers of
`huffman_t2_clock.c`. -/
def t2Init : T2State :=
  ⟨0, fun _ => [], [], fun _ => false⟩

/-- `HuffmanCodes(data, size)` of `huffman_t2_clock.c`, acting on the
persistent static state: chunked frequency count (chunk 1000), forced EOF
sentinel `freq[EOF_CHAR] = 1`, unique collection over `MAX_CHAR = 128`,
tree build, iterative code generation with the persistent `visited` and
`codes`, compression over the persistent `compressed` buffer, EOF-code
append at `strlen`, and byte conversion of the `strlen`-delimited string.
`none` models undefined behaviour (overflow of the `nodes[128]` arena by
the `2n-1` `newNode` calls, extraction from an empty queue) or exhausted
traversal fuel. -/
def HuffmanCodesT2 (data : List Nat) (st : T2State) :
    Option (List Nat × T2State) :=
  let freq := Function.update (calculateFrequencyInChunks data (fun _ => 0) 1000) 0 1
  let uniqueData := uniqueSymbols 128 freq
  let uniqueFreq := uniqueFreqs 128 freq
  if st.nodeIndex + (2 * uniqueData.length - 1) > 128 then none
  else
    match buildHuffmanTree nodeLT uniqueData uniqueFreq with
    | none => none
    | some root =>
      match gcLoop gcFuel [] [] st.visited (some root) st.codes with
      | none => none
      | some (codes, visited) =>
        let compressed := appendAtStrlen
          (compressInputT2 data codes st.compressed) (codes 0)
        some (convertToAscii (cstr compressed),
          ⟨st.nodeIndex + (2 * uniqueData.length - 1), codes, compressed, visited⟩)

/-- `HuffmanCodes(data, size)` of `huffman_vlad.c`: frequency count over
the declared size, no sentinel, unique collection over `MAX_CHAR = 256`,
tree build, recursive code generation into a LOCAL zeroed `codes` array,
compression into a LOCAL zeroed buffer (stopping at the first NUL of the
input), byte conversion.  Only the node-arena cursor `nodeIndex` persists
between calls; `none` models overflow of the `nodes[256]` arena or queue
underflow, both undefined behaviour in C.  Returns the compressed bit
string, the output bytes, and the new arena cursor. -/
def HuffmanCodesVlad (data : List Nat) (nodeIndex : Nat) :
    Option ((List Char × List Nat) × Nat) :=
  let freq := calculateFrequency data (fun _ => 0)
  let uniqueData := uniqueSymbols 256 freq
  let uniqueFreq := uniqueFreqs 256 freq
  if nodeIndex + (2 * uniqueData.length - 1) > 256 then none
  else
    match buildHuffmanTree nodeLT uniqueData uniqueFreq with
    | none => none
    | some root =>
      let compressed := compressInputVlad data (codeTable root)
      some ((compressed, convertToAscii compressed),
        nodeIndex + (2 * uniqueData.length - 1))

theorem smallestIdx_spec (lt : HTree → HTree → Bool) (hs : List HTree) (idx : Nat) :
    smallestIdx lt hs idx = idx ∨
      (idx < smallestIdx lt hs idx ∧ smallestIdx lt hs idx < hs.length) := by
  unfold smallestIdx
  dsimp only
  split <;> split <;> first | (left; rfl) | (right; omega)

theorem minHeapifyF_length (lt : HTree → HTree → Bool) (fuel : Nat) :
    ∀ (hs : List HTree) (idx : Nat),
      (minHeapifyF lt fuel hs idx).length = hs.length := by
  induction fuel with
  | zero => intro hs idx; rfl
  | succ fuel ih =>
      intro hs idx
      rw [minHeapifyF]
      split
      · rfl
      · rw [ih]
        simp [swapMinHeapNode]

theorem minHeapify_length (lt : HTree → HTree → Bool) (hs : List HTree) (idx : Nat) :
    (minHeapify lt hs idx).length = hs.length :=
  minHeapifyF_length lt (hs.length + 1) hs idx

theorem extractMin_length (lt : HTree → HTree → Bool) (hs : List HTree)
    (t : HTree) (rest : List HTree) (h : extractMin lt hs = some (t, rest)) :
    rest.length = hs.length - 1 := by
  match hs, h with
  | a :: tl, h =>
    simp only [extractMin, Option.some.injEq, Prod.mk.injEq] at h
    rw [← h.2, minHeapify_length, List.length_dropLast, List.length_set]

theorem siftUpF_length (fuel : Nat) :
    ∀ (hs : List HTree) (i : Nat) (node : HTree),
      (siftUpF fuel hs i node).length = hs.length := by
  induction fuel with
  | zero => intro hs i node; exact List.length_set hs i node
  | succ fuel ih =>
      intro hs i node
      rw [siftUpF]
      split
      · rw [ih]
        exact List.length_set hs i (aget hs ((i - 1) / 2))
      · exact List.length_set hs i node

theorem insertMinHeap_length (hs : List HTree) (node : HTree) :
    (insertMinHeap hs node).length = hs.length + 1 := by
  rw [insertMinHeap, siftUpF_length, List.length_append, List.length_cons,
    List.length_nil]

theorem binary_to_char_take (l : List Char) :
    binary_to_char (l.take 8) = binary_to_char l := by
  simp [binary_to_char, List.take_take]

theorem range_map_eq_group8 (l : List Char) (h : l.length % 8 = 0) :
    (List.range (l.length / 8)).map (fun i => binary_to_char (l.drop (8 * i))) =
      group8 l := by
  induction l using group8.induct with
  | case1 b0 b1 b2 b3 b4 b5 b6 b7 rest ih =>
      have hdrop : rest.length % 8 = 0 := by
        simp only [List.length_cons] at h
        omega
      have hk : (b0 :: b1 :: b2 :: b3 :: b4 :: b5 :: b6 :: b7 :: rest).length / 8 =
          rest.length / 8 + 1 := by
        simp only [List.length_cons]
        omega
      rw [hk, List.range_succ_eq_map, List.map_cons, List.map_map, group8]
      refine congrArg₂ _ ?_ ?_
      · exact (binary_to_char_take _).symm
      · rw [← ih hdrop]
        refine List.map_congr_left fun i _ => ?_
        simp only [Function.comp_apply]
        have h8 : 8 * Nat.succ i = 8 + 8 * i := by omega
        rw [h8, ← List.drop_drop]
        rfl
  | case2 t hne =>
      rcases t with _ | ⟨a0, _ | ⟨a1, _ | ⟨a2, _ | ⟨a3, _ | ⟨a4, _ | ⟨a5, _ | ⟨a6, _ | ⟨a7, rest⟩⟩⟩⟩⟩⟩⟩⟩
      · rfl
      · simp at h
      · simp at h
      · simp at h
      · simp at h
      · simp at h
      · simp at h
      · simp at h
      · exact (hne _ _ _ _ _ _ _ _ _ rfl).elim

/-- The two formulations of `convertToAscii` coincide: the C code pads by
prepending `'0'` characters. -/
theorem convertToAscii_eq_packLeading (bits : List Char) :
    convertToAscii bits = packLeading bits := by
  unfold convertToAscii packLeading
  dsimp only
  have hpad : (8 - bits.length % 8) % 8 = (bits.length + 7) / 8 * 8 - bits.length := by
    omega
  have hlen :
      (List.replicate ((bits.length + 7) / 8 * 8 - bits.length) '0' ++ bits).length =
        (bits.length + 7) / 8 * 8 := by
    simp only [List.length_append, List.length_replicate]
    omega
  rw [hpad, ← range_map_eq_group8 _ (by rw [hlen]; omega), hlen]

/-- Claim C1, counterexample: with the code table mapping symbol 97 to the
single bit `'1'` and the one-symbol input `[97]`, the concatenated code bit
string is `"1"` (length 1, not a multiple of 8).  `convertToAscii` produces
the byte 1 = `00000001` (padding PREPENDED), while the spec-modelled
trailing padding would produce 128 = `10000000`; the claim that padding is
appended at the end is therefore false on this input. -/
theorem claim1_counterexample :
    convertToAscii (compressBits [97] fun c => if c = 97 then ['1'] else []) = [1] ∧
    packTrailing (compressBits [97] fun c => if c = 97 then ['1'] else []) = [128] ∧
    convertToAscii (compressBits [97] fun c => if c = 97 then ['1'] else []) ≠
      packTrailing (compressBits [97] fun c => if c = 97 then ['1'] else []) := by
  refine ⟨by decide, by decide, by decide⟩

/-- Claim C1, amended: for every code table and input sequence whose
concatenated code bit string has a length that is not a multiple of 8, the
bit packer pads the bit sequence up to the next multiple of 8 by
PREPENDING '0' bits at the start (the first output byte is zero-padded on
its high-order bits), never appending, before grouping into 8-bit output
bytes MSB first. -/
theorem claim1_theorem (input : List Nat) (codes : Nat → List Char)
    (h : (compressBits input codes).length % 8 ≠ 0) :
    convertToAscii (compressBits input codes) =
      packLeading (compressBits input codes) :=
  convertToAscii_eq_packLeading _

theorem claim1_witness :
    (compressBits [97] fun c => if c = 97 then ['1'] else []).length % 8 ≠ 0 ∧
    convertToAscii (compressBits [97] fun c => if c = 97 then ['1'] else []) =
      packLeading (compressBits [97] fun c => if c = 97 then ['1'] else []) :=
  ⟨by decide, claim1_theorem [97] _ (by decide)⟩

theorem calculateFrequencyInChunksF_eq (fuel : Nat) :
    ∀ (data : List Nat) (freq : Nat → Nat) (chunkSize : Nat),
      1 ≤ chunkSize → data.length ≤ fuel →
      calculateFrequencyInChunksF fuel data freq chunkSize =
        calculateFrequency data freq := by
  induction fuel with
  | zero =>
      intro data freq chunk h1 h2
      have hd : data = [] := List.length_eq_zero.mp (Nat.le_zero.mp h2)
      subst hd
      rfl
  | succ fuel ih =>
      intro data freq chunk h1 h2
      rw [calculateFrequencyInChunksF]
      split
      · rename_i hc
        rcases hc with hc | hc
        · subst hc; rfl
        · omega
      · rename_i hc
        push_neg at hc
        have hlen : (data.drop chunk).length ≤ fuel := by
          rcases data with _ | ⟨a, tl⟩
          · exact absurd rfl hc.1
          · simp only [List.length_drop, List.length_cons] at h2 ⊢
            omega
        rw [ih _ _ _ h1 hlen]
        unfold calculateFrequency
        rw [← List.foldl_append, List.take_append_drop]

/-- Claim C5: counting frequencies chunk-by-chunk in fixed-size windows of
any size `chunkSize ≥ 1` produces a frequency table identical to counting
the whole input in one pass. -/
theorem claim5_theorem (data : List Nat) (freq : Nat → Nat) (chunkSize : Nat)
    (h : 1 ≤ chunkSize) :
    calculateFrequencyInChunks data freq chunkSize = calculateFrequency data freq :=
  calculateFrequencyInChunksF_eq data.length data freq chunkSize h (Nat.le_refl _)

theorem claim5_witness :
    1 ≤ 3 ∧
    calculateFrequencyInChunks [5, 6, 5, 5, 9, 6, 5] (fun _ => 0) 3 =
      calculateFrequency [5, 6, 5, 5, 9, 6, 5] (fun _ => 0) :=
  ⟨by decide, claim5_theorem [5, 6, 5, 5, 9, 6, 5] (fun _ => 0) 3 (by decide)⟩

theorem generateCodes_spec (t : HTree) (s : Nat) :
    ∀ (code : List Char) (codes : Nat → List Char),
      generateCodes t code codes s = codes s ∨
        ∃ p, generateCodes t code codes s = code ++ p ∧ LeafPathOf t p s := by
  induction t with
  | leaf d f =>
      intro code codes
      by_cases hs : s = d
      · subst hs
        right
        refine ⟨[], ?_, LeafPathOf.leaf s f⟩
        simp [generateCodes, Function.update_same]
      · left
        simp [generateCodes, Function.update_noteq hs]
  | node d f l r ihl ihr =>
      intro code codes
      rcases ihr (code ++ ['1']) (generateCodes l (code ++ ['0']) codes) with h | ⟨p, hp, hpath⟩
      · rcases ihl (code ++ ['0']) codes with h2 | ⟨p, hp, hpath⟩
        · left
          show generateCodes r (code ++ ['1']) (generateCodes l (code ++ ['0']) codes) s = codes s
          rw [h, h2]
        · right
          refine ⟨'0' :: p, ?_, LeafPathOf.goLeft d f hpath⟩
          show generateCodes r (code ++ ['1']) (generateCodes l (code ++ ['0']) codes) s = _
          rw [h, hp]
          simp
      · right
        refine ⟨'1' :: p, ?_, LeafPathOf.goRight d f hpath⟩
        show generateCodes r (code ++ ['1']) (generateCodes l (code ++ ['0']) codes) s = _
        rw [hp]
        simp

theorem leafPath_prefix_eq {t : HTree} {p : List Char} {s : Nat}
    (hp : LeafPathOf t p s) :
    ∀ {q : List Char} {u : Nat}, LeafPathOf t q u → p <+: q → p = q := by
  induction hp with
  | leaf d f =>
      intro q u hq _
      cases hq
      rfl
  | goLeft d f hl ih =>
      intro q u hq hpre
      cases hq with
      | goLeft _ _ hq' =>
          obtain ⟨tt, htt⟩ := hpre
          simp only [List.cons_append, List.cons.injEq] at htt
          rw [ih hq' ⟨tt, htt.2⟩]
      | goRight _ _ hq' =>
          obtain ⟨tt, htt⟩ := hpre
          simp only [List.cons_append, List.cons.injEq] at htt
          exact absurd htt.1 (by decide)
  | goRight d f hr ih =>
      intro q u hq hpre
      cases hq with
      | goLeft _ _ hq' =>
          obtain ⟨tt, htt⟩ := hpre
          simp only [List.cons_append, List.cons.injEq] at htt
          exact absurd htt.1 (by decide)
      | goRight _ _ hq' =>
          obtain ⟨tt, htt⟩ := hpre
          simp only [List.cons_append, List.cons.injEq] at htt
          rw [ih hq' ⟨tt, htt.2⟩]

theorem leafPath_func {t : HTree} {p : List Char} {s : Nat}
    (hp : LeafPathOf t p s) :
    ∀ {u : Nat}, LeafPathOf t p u → s = u := by
  induction hp with
  | leaf d f =>
      intro u hq
      cases hq
      rfl
  | goLeft d f hl ih =>
      intro u hq
      cases hq with
      | goLeft _ _ hq' => exact ih hq'
  | goRight d f hr ih =>
      intro u hq
      cases hq with
      | goRight _ _ hq' => exact ih hq'

/-- Claim C2: for every frequency table with at least two distinct symbols,
the code table extracted from the Huffman tree is prefix-free: for all
pairs of distinct symbols present in the table (nonempty code rows),
neither symbol's code bit-string is a prefix of the other's. -/
theorem claim2_theorem (data freqs : List Nat) (tree : HTree)
    (hsize : 2 ≤ (data.zip freqs).length)
    (hbuild : buildHuffmanTree nodeLT data freqs = some tree)
    (s u : Nat) (hsu : s ≠ u)
    (hs : codeTable tree s ≠ []) (hu : codeTable tree u ≠ []) :
    ¬ codeTable tree s <+: codeTable tree u := by
  intro hpre
  rcases generateCodes_spec tree s [] (fun _ => []) with h | ⟨p, hp, hpath⟩
  · exact hs h
  · rcases generateCodes_spec tree u [] (fun _ => []) with h2 | ⟨q, hq, hqpath⟩
    · exact hu h2
    · have hps : codeTable tree s = p := by simpa using hp
      have hqu : codeTable tree u = q := by simpa using hq
      rw [hps, hqu] at hpre
      have hpq : p = q := leafPath_prefix_eq hpath hqpath hpre
      subst hpq
      exact hsu (leafPath_func hpath hqpath)

theorem extractMin_isSome (lt : HTree → HTree → Bool) (hs : List HTree)
    (h : hs ≠ []) : ∃ t rest, extractMin lt hs = some (t, rest) := by
  cases hs with
  | nil => exact absurd rfl h
  | cons a tl => exact ⟨_, _, rfl⟩

theorem buildLoopF_some (lt : HTree → HTree → Bool) (fuel : Nat) :
    ∀ (hs : List HTree), hs ≠ [] → hs.length ≤ fuel →
      ∃ t, buildLoopF lt fuel hs = some t := by
  induction fuel with
  | zero =>
      intro hs h1 h2
      cases hs with
      | nil => exact absurd rfl h1
      | cons a tl => simp at h2
  | succ fuel ih =>
      intro hs h1 h2
      rw [buildLoopF]
      split
      · rename_i hlen
        obtain ⟨t1, r1, he1⟩ := extractMin_isSome lt hs h1
        rw [he1]
        dsimp only
        have hr1len : r1.length = hs.length - 1 := extractMin_length lt hs t1 r1 he1
        have hr1ne : r1 ≠ [] := by
          refine List.length_pos.mp ?_
          omega
        obtain ⟨t2, r2, he2⟩ := extractMin_isSome lt r1 hr1ne
        rw [he2]
        dsimp only
        have hr2len : r2.length = r1.length - 1 := extractMin_length lt r1 t2 r2 he2
        apply ih
        · refine List.length_pos.mp ?_
          rw [insertMinHeap_length]
          omega
        · rw [insertMinHeap_length]
          omega
      · obtain ⟨t1, r1, he1⟩ := extractMin_isSome lt hs h1
        rw [he1]
        exact ⟨t1, rfl⟩

theorem buildMinHeapAux_length (lt : HTree → HTree → Bool) :
    ∀ (i : Nat) (hs : List HTree),
      (buildMinHeapAux lt hs i).length = hs.length := by
  intro i
  induction i with
  | zero => intro hs; exact minHeapify_length lt hs 0
  | succ i ih =>
      intro hs
      rw [buildMinHeapAux, ih, minHeapify_length]

theorem buildMinHeap_length (lt : HTree → HTree → Bool) (hs : List HTree) :
    (buildMinHeap lt hs).length = hs.length := by
  cases hs with
  | nil => rfl
  | cons a tl => exact buildMinHeapAux_length lt _ _

theorem createAndBuildMinHeap_length (lt : HTree → HTree → Bool)
    (data freqs : List Nat) :
    (createAndBuildMinHeap lt data freqs).length = (data.zip freqs).length := by
  rw [createAndBuildMinHeap, buildMinHeap_length, List.length_map]

/-- Claim C6 (the error-handling half is a code bug): the model marks the
empty-table call with `none` because `extractMin` is reached on an empty
queue — in the C source that spot reads an uninitialized `array[0]` and
underflows the unsigned `size`, undefined behaviour rather than the
explicit error the specification promises.  For every table with at least
one distinct symbol the build succeeds and returns a single root. -/
theorem claim6_theorem :
    buildHuffmanTree nodeLT [] [] = none ∧
    ∀ (data freqs : List Nat), 1 ≤ (data.zip freqs).length →
      ∃ t, buildHuffmanTree nodeLT data freqs = some t := by
  constructor
  · rfl
  · intro data freqs h
    unfold buildHuffmanTree
    apply buildLoopF_some
    · refine List.length_pos.mp ?_
      rw [createAndBuildMinHeap_length]
      omega
    · rw [createAndBuildMinHeap_length]
      omega

theorem claim6_witness :
    buildHuffmanTree nodeLT [] [] = none ∧
    1 ≤ ([97].zip [2]).length ∧
    ∃ t, buildHuffmanTree nodeLT [97] [2] = some t :=
  ⟨claim6_theorem.1, by decide, claim6_theorem.2 [97] [2] (by decide)⟩

theorem compressBits_eq_join (input : List Nat) (codes : Nat → List Char) :
    compressBits input codes = (input.map codes).flatten := by
  have hgen : ∀ (l : List Nat) (acc : List Char),
      l.foldl (fun acc c => acc ++ codes c) acc = acc ++ (l.map codes).flatten := by
    intro l
    induction l with
    | nil => intro acc; simp
    | cons a tl ih =>
        intro acc
        simp only [List.foldl_cons, List.map_cons, List.flatten, ih, List.append_assoc]
  simpa using hgen input []

/-- Claim C7, counterexample: with a code table that has no entry for
symbol 98, the input `[98, 97]` is packed to exactly the bits of `[97]` —
the uncoded symbol is silently skipped, the packer completes and no error
of any kind occurs, contradicting "fails with a defined error … never
silently skipped". -/
theorem claim7_counterexample :
    (fun c => if c = 97 then ['0'] else ([] : List Char)) 98 = [] ∧
    compressBits [98, 97] (fun c => if c = 97 then ['0'] else []) = ['0'] ∧
    compressBits [98, 97] (fun c => if c = 97 then ['0'] else []) =
      compressBits [97] (fun c => if c = 97 then ['0'] else []) := by
  refine ⟨by decide, by decide, by decide⟩

/-- Claim C7, amended: the bit packer always completes; an input symbol
with no entry in the code table (empty row) contributes no bits — it is
silently skipped, so the output equals the packing of the input with all
uncoded symbols removed, and when every input symbol has an entry the
output is the concatenation of their codes in input order. -/
theorem claim7_theorem (input : List Nat) (codes : Nat → List Char) :
    compressBits input codes = (input.map codes).flatten ∧
    compressBits input codes =
      compressBits (input.filter fun c => !(codes c).isEmpty) codes := by
  refine ⟨compressBits_eq_join input codes, ?_⟩
  rw [compressBits_eq_join, compressBits_eq_join]
  induction input with
  | nil => rfl
  | cons a tl ih =>
      by_cases h : (codes a).isEmpty
      · have ha : codes a = [] := by
          cases hc : codes a with
          | nil => rfl
          | cons x xs => rw [hc] at h; simp at h
        simp [List.filter_cons, h, ha, ih]
      · simp only [List.filter_cons]
        simp only [h, Bool.not_false, if_pos]
        simp [ih]

/-- Claim C10: the `huffman_vlad.c` packer determines the end of the input
by the first NUL byte rather than the declared length: for every input
with a NUL before its declared end, exactly the symbols strictly before
the first NUL are encoded (their codes concatenated in order) and the
bytes after the NUL contribute nothing. -/
theorem claim10_theorem (pre post : List Nat) (codes : Nat → List Char)
    (h : 0 ∉ pre) :
    compressInputVlad (pre ++ 0 :: post) codes = (pre.map codes).flatten ∧
    compressInputVlad (pre ++ 0 :: post) codes = compressInputVlad pre codes := by
  induction pre with
  | nil => exact ⟨rfl, rfl⟩
  | cons a tl ih =>
      have ha : a ≠ 0 := fun h0 => h (h0 ▸ List.mem_cons_self a tl)
      have htl : 0 ∉ tl := fun hm => h (List.mem_cons_of_mem a hm)
      obtain ⟨ih1, ih2⟩ := ih htl
      constructor
      · simp only [List.cons_append, compressInputVlad, if_neg ha,
          List.map_cons, List.flatten, List.append_eq, ih1]
      · simp only [List.cons_append, compressInputVlad, if_neg ha,
          List.append_eq, ih2]

theorem claim10_witness :
    (0 : Nat) ∉ [97, 98] ∧
    compressInputVlad ([97, 98] ++ 0 :: [99, 97]) (fun c => [Char.ofNat c]) =
      (([97, 98].map fun c => [Char.ofNat c]).flatten) ∧
    compressInputVlad ([97, 98] ++ 0 :: [99, 97]) (fun c => [Char.ofNat c]) =
      compressInputVlad [97, 98] (fun c => [Char.ofNat c]) :=
  ⟨by decide, (claim10_theorem [97, 98] [99, 97] _ (by decide)).1,
    (claim10_theorem [97, 98] [99, 97] _ (by decide)).2⟩

theorem claim2_witness :
    2 ≤ ([97, 98].zip [1, 1]).length ∧
    buildHuffmanTree nodeLT [97, 98] [1, 1] =
      some (HTree.node 36 2 (HTree.leaf 97 1) (HTree.leaf 98 1)) ∧
    (97 : Nat) ≠ 98 ∧
    codeTable (HTree.node 36 2 (HTree.leaf 97 1) (HTree.leaf 98 1)) 97 ≠ [] ∧
    codeTable (HTree.node 36 2 (HTree.leaf 97 1) (HTree.leaf 98 1)) 98 ≠ [] ∧
    ¬ codeTable (HTree.node 36 2 (HTree.leaf 97 1) (HTree.leaf 98 1)) 97 <+:
        codeTable (HTree.node 36 2 (HTree.leaf 97 1) (HTree.leaf 98 1)) 98 :=
  ⟨by decide, by decide, by decide, by decide, by decide,
    claim2_theorem [97, 98] [1, 1] _ (by decide) (by decide) 97 98
      (by decide) (by decide) (by decide)⟩

theorem calculateFrequency_replicate (k c : Nat) :
    ∀ (f : Nat → Nat) (i : Nat),
      calculateFrequency (List.replicate k c) f i =
        if i = c then f i + k else f i := by
  induction k with
  | zero =>
      intro f i
      by_cases h : i = c <;> simp [calculateFrequency, h]
  | succ k ih =>
      intro f i
      rw [List.replicate_succ]
      have hstep : calculateFrequency (c :: List.replicate k c) f =
          calculateFrequency (List.replicate k c) (freqStep f c) := rfl
      rw [hstep, ih]
      by_cases h : i = c
      · subst h
        simp [freqStep, Function.update_same]
        omega
      · simp [freqStep, Function.update_noteq h, h]

theorem filter_range_eq_single (c : Nat) (p : Nat → Bool)
    (hp : ∀ i, p i = true ↔ i = c) :
    ∀ (n : Nat), c < n → (List.range n).filter p = [c] := by
  intro n
  induction n with
  | zero => omega
  | succ n ih =>
      intro hc
      rw [List.range_succ, List.filter_append]
      by_cases h : c = n
      · subst h
        have hnil : (List.range c).filter p = [] := by
          rw [List.filter_eq_nil_iff]
          intro a ha hpa
          have h1 : a < c := List.mem_range.mp ha
          have h2 : a = c := (hp a).mp hpa
          omega
        have hone : [c].filter p = [c] := by
          rw [List.filter_cons, if_pos ((hp c).mpr rfl)]
          rfl
        rw [hnil, hone]
        rfl
      · have hcn : c < n := by omega
        have hfn : p n = false := by
          cases hb : p n with
          | false => rfl
          | true => exact absurd ((hp n).mp hb).symm h
        rw [ih hcn, List.filter_cons, if_neg (by rw [hfn]; exact Bool.false_ne_true),
          List.filter_nil, List.append_nil]

theorem compressInputVlad_allEmpty (codes : Nat → List Char)
    (hc : ∀ x, codes x = []) :
    ∀ (input : List Nat), compressInputVlad input codes = [] := by
  intro input
  induction input with
  | nil => rfl
  | cons a tl ih =>
      rw [compressInputVlad]
      split
      · rfl
      · rw [hc a, ih, List.nil_append]

/-- Claim C9: for every input consisting of one repeated symbol (the
`huffman_vlad.c` variant: no injected sentinel), the unique-symbol
collection finds exactly that symbol with its count, tree building returns
the single leaf as the root, code extraction assigns that symbol the empty
bit string, and the bit packer completes producing empty output for the
empty code stream. -/
theorem claim9_theorem (c k : Nat) (hc : c < 256) (hk : 1 ≤ k) :
    uniqueSymbols 256 (calculateFrequency (List.replicate k c) fun _ => 0) = [c] ∧
    uniqueFreqs 256 (calculateFrequency (List.replicate k c) fun _ => 0) = [k] ∧
    buildHuffmanTree nodeLT [c] [k] = some (HTree.leaf c k) ∧
    codeTable (HTree.leaf c k) c = [] ∧
    compressInputVlad (List.replicate k c) (codeTable (HTree.leaf c k)) = [] ∧
    convertToAscii
      (compressInputVlad (List.replicate k c) (codeTable (HTree.leaf c k))) = [] := by
  have hfreq : ∀ i, calculateFrequency (List.replicate k c) (fun _ => 0) i =
      if i = c then k else 0 := by
    intro i
    rw [calculateFrequency_replicate]
    by_cases h : i = c <;> simp [h]
  have huniq : uniqueSymbols 256 (calculateFrequency (List.replicate k c) fun _ => 0) = [c] := by
    unfold uniqueSymbols
    refine filter_range_eq_single c _ ?_ 256 hc
    intro i
    rw [hfreq i]
    by_cases h : i = c <;> simp [h] <;> omega
  have htbl : ∀ x, codeTable (HTree.leaf c k) x = [] := by
    intro x
    show Function.update (fun _ => ([] : List Char)) c [] x = []
    by_cases h : x = c
    · subst h; rw [Function.update_same]
    · rw [Function.update_noteq h]
  have hpack : compressInputVlad (List.replicate k c) (codeTable (HTree.leaf c k)) = [] :=
    compressInputVlad_allEmpty _ htbl _
  refine ⟨huniq, ?_, by with_unfolding_all rfl, htbl c, hpack, ?_⟩
  · unfold uniqueFreqs
    rw [huniq, List.map_cons, List.map_nil, hfreq c, if_pos rfl]
  · rw [hpack]
    decide

theorem claim9_witness :
    (97 : Nat) < 256 ∧ 1 ≤ 3 ∧
    uniqueSymbols 256 (calculateFrequency (List.replicate 3 97) fun _ => 0) = [97] ∧
    buildHuffmanTree nodeLT [97] [3] = some (HTree.leaf 97 3) ∧
    codeTable (HTree.leaf 97 3) 97 = [] ∧
    compressInputVlad (List.replicate 3 97) (codeTable (HTree.leaf 97 3)) = [] :=
  ⟨by decide, by decide, (claim9_theorem 97 3 (by decide) (by decide)).1,
    (claim9_theorem 97 3 (by decide) (by decide)).2.2.1,
    (claim9_theorem 97 3 (by decide) (by decide)).2.2.2.1,
    (claim9_theorem 97 3 (by decide) (by decide)).2.2.2.2.1⟩

/-- Claim C4, counterexample: `[leaf 98 1, leaf 97 1]` is a queue state the
real insertion API produces (insertMinHeap compares weight only in all
three variants), it satisfies the weight heap invariant and holds two
equal-weight nodes with distinct symbols — yet `extractMin` returns the
node with the LARGER symbol 98 first, both under the `huffman.c`
comparison (with the symbol tie-break) and under the weight-only
comparison of the other two variants, because `extractMin` always returns
the current root. -/
theorem claim4_counterexample :
    insertMinHeap (insertMinHeap [] (HTree.leaf 98 1)) (HTree.leaf 97 1) =
      [HTree.leaf 98 1, HTree.leaf 97 1] ∧
    isMinHeap [HTree.leaf 98 1, HTree.leaf 97 1] = true ∧
    (HTree.leaf 98 1).freq = (HTree.leaf 97 1).freq ∧
    (HTree.leaf 98 1).data ≠ (HTree.leaf 97 1).data ∧
    extractMin nodeLTData [HTree.leaf 98 1, HTree.leaf 97 1] =
      some (HTree.leaf 98 1, [HTree.leaf 97 1]) ∧
    extractMin nodeLT [HTree.leaf 98 1, HTree.leaf 97 1] =
      some (HTree.leaf 98 1, [HTree.leaf 97 1]) ∧
    (97 : Nat) < 98 := by
  decide

/-- Claim C4, amended: only the `huffman.c` variant's `minHeapify`
comparison treats an equal-weight node with smaller symbol value as
strictly smaller (`insertMinHeap` and the `huffman_vlad.c` /
`huffman_t2_clock.c` comparisons use weight alone), and `extractMin`
returns whatever node sits at the root.  The tie-break therefore only
shows through sift-down: once `buildMinHeap` has established the invariant
under the `huffman.c` comparison on a two-node queue of equal-weight nodes
with distinct symbols, the node with the smaller symbol is at the root and
is extracted first. -/
theorem claim4_theorem (a b : HTree) (hfreq : a.freq = b.freq)
    (hdata : b.data < a.data) :
    extractMin nodeLTData (buildMinHeap nodeLTData [a, b]) = some (b, [a]) := by
  have hba : nodeLTData b a = true := by
    simp [nodeLTData, hfreq, hdata]
  have hs1 : smallestIdx nodeLTData [a, b] 0 = 1 := by
    unfold smallestIdx
    dsimp only
    split
    · rename_i hc
      split
      · rename_i hc2
        exact absurd hc2.1 (by norm_num)
      · norm_num
    · rename_i hc
      exact absurd ⟨by norm_num, hba⟩ hc
  have h3 : buildMinHeap nodeLTData [a, b] =
      if smallestIdx nodeLTData [a, b] 0 = 0 then [a, b]
      else
        minHeapifyF nodeLTData 2
          (swapMinHeapNode [a, b] (smallestIdx nodeLTData [a, b] 0) 0)
          (smallestIdx nodeLTData [a, b] 0) := by
    with_unfolding_all rfl
  rw [h3, hs1, if_neg (by norm_num)]
  have h4 : swapMinHeapNode [a, b] 1 0 = [b, a] := by
    with_unfolding_all rfl
  rw [h4]
  have hs2 : smallestIdx nodeLTData [b, a] 1 = 1 := by
    unfold smallestIdx
    dsimp only
    split
    · rename_i hc
      exact absurd hc.1 (by norm_num)
    · split
      · rename_i hc2
        exact absurd hc2.1 (by norm_num)
      · rfl
  have h5 : minHeapifyF nodeLTData 2 [b, a] 1 =
      if smallestIdx nodeLTData [b, a] 1 = 1 then [b, a]
      else
        minHeapifyF nodeLTData 1
          (swapMinHeapNode [b, a] (smallestIdx nodeLTData [b, a] 1) 1)
          (smallestIdx nodeLTData [b, a] 1) := by
    with_unfolding_all rfl
  rw [h5, hs2, if_pos rfl]
  with_unfolding_all rfl

theorem aget_cons_zero (a : HTree) (l : List HTree) : aget (a :: l) 0 = a := rfl

theorem aget_cons_succ (a : HTree) (l : List HTree) (i : Nat) :
    aget (a :: l) (i + 1) = aget l i := rfl

theorem set_perm_cons_eraseIdx :
    ∀ (l : List HTree) (i : Nat) (x : HTree), i < l.length →
      (l.set i x).Perm (x :: l.eraseIdx i) := by
  intro l
  induction l with
  | nil => intro i x h; simp at h
  | cons a tl ih =>
      intro i x h
      cases i with
      | zero =>
          rw [List.set_cons_zero, List.eraseIdx_cons_zero]
      | succ i =>
          rw [List.set_cons_succ, List.eraseIdx_cons_succ]
          have h1 : i < tl.length := by simpa using h
          exact ((ih i x h1).cons a).trans (List.Perm.swap x a (tl.eraseIdx i))

theorem aget_cons_eraseIdx_perm :
    ∀ (l : List HTree) (i : Nat), i < l.length →
      (aget l i :: l.eraseIdx i).Perm l := by
  intro l
  induction l with
  | nil => intro i h; simp at h
  | cons a tl ih =>
      intro i h
      cases i with
      | zero => rw [aget_cons_zero, List.eraseIdx_cons_zero]
      | succ i =>
          rw [aget_cons_succ, List.eraseIdx_cons_succ]
          have h1 : i < tl.length := by simpa using h
          exact (List.Perm.swap a (aget tl i) (tl.eraseIdx i)).trans ((ih i h1).cons a)

theorem swapMinHeapNode_perm :
    ∀ (l : List HTree) (i j : Nat), i < l.length → j < l.length →
      (swapMinHeapNode l i j).Perm l := by
  intro l
  induction l with
  | nil => intro i j hi _; simp at hi
  | cons a tl ih =>
      intro i j hi hj
      have key : ∀ (k : Nat), k < tl.length →
          (aget tl k :: tl.set k a).Perm (a :: tl) := by
        intro k hk
        refine ((set_perm_cons_eraseIdx tl k a hk).cons _).trans ?_
        refine (List.Perm.swap a (aget tl k) (tl.eraseIdx k)).trans ?_
        exact (aget_cons_eraseIdx_perm tl k hk).cons a
      unfold swapMinHeapNode
      cases i with
      | zero =>
          cases j with
          | zero =>
              exact List.Perm.of_eq (by with_unfolding_all rfl)
          | succ j =>
              have hj1 : j < tl.length := by simpa using hj
              rw [aget_cons_succ, List.set_cons_zero, aget_cons_zero, List.set_cons_succ]
              exact key j hj1
      | succ i =>
          have hi1 : i < tl.length := by simpa using hi
          cases j with
          | zero =>
              rw [aget_cons_zero, List.set_cons_succ, aget_cons_succ, List.set_cons_zero]
              exact key i hi1
          | succ j =>
              have hj1 : j < tl.length := by simpa using hj
              rw [aget_cons_succ, List.set_cons_succ, aget_cons_succ, List.set_cons_succ]
              exact (ih i j hi1 hj1).cons a

theorem minHeapifyF_perm (lt : HTree → HTree → Bool) (fuel : Nat) :
    ∀ (hs : List HTree) (idx : Nat), (minHeapifyF lt fuel hs idx).Perm hs := by
  induction fuel with
  | zero => intro hs idx; exact List.Perm.refl hs
  | succ fuel ih =>
      intro hs idx
      rw [minHeapifyF]
      split
      · exact List.Perm.refl hs
      · rename_i hne
        refine (ih _ _).trans ?_
        rcases smallestIdx_spec lt hs idx with h | ⟨h1, h2⟩
        · exact absurd h hne
        · exact swapMinHeapNode_perm hs _ idx h2 (by omega)

theorem minHeapify_perm (lt : HTree → HTree → Bool) (hs : List HTree) (idx : Nat) :
    (minHeapify lt hs idx).Perm hs :=
  minHeapifyF_perm lt (hs.length + 1) hs idx

theorem last_cons_dropLast_perm :
    ∀ (l : List HTree), l ≠ [] → (aget l (l.length - 1) :: l.dropLast).Perm l := by
  intro l
  induction l with
  | nil => intro h; exact absurd rfl h
  | cons a tl ih =>
      intro _
      cases tl with
      | nil => exact List.Perm.refl [a]
      | cons b tl2 =>
          have hne : b :: tl2 ≠ [] := by simp
          have hidx : (a :: b :: tl2).length - 1 = ((b :: tl2).length - 1) + 1 := by
            simp
          rw [hidx, aget_cons_succ, List.dropLast_cons₂]
          exact (List.Perm.swap a _ _).trans ((ih hne).cons a)

theorem extractMin_perm (lt : HTree → HTree → Bool) (hs : List HTree)
    (t : HTree) (rest : List HTree) (h : extractMin lt hs = some (t, rest)) :
    (t :: rest).Perm hs := by
  match hs, h with
  | a :: tl, h =>
    simp only [extractMin, Option.some.injEq, Prod.mk.injEq] at h
    obtain ⟨rfl, hrest⟩ := h
    subst hrest
    refine List.Perm.cons a ?_
    refine (minHeapify_perm lt _ 0).trans ?_
    cases tl with
    | nil => exact List.Perm.refl _
    | cons b tl2 =>
        rw [List.set_cons_zero, List.dropLast_cons₂]
        have h2 : aget (a :: b :: tl2) (b :: tl2).length =
            aget (b :: tl2) ((b :: tl2).length - 1) := by
          with_unfolding_all rfl
        rw [h2]
        exact last_cons_dropLast_perm (b :: tl2) (by simp)

theorem eraseIdx_set_perm :
    ∀ (l : List HTree) (p i : Nat), p < i → i < l.length →
      ((l.set i (aget l p)).eraseIdx p).Perm (l.eraseIdx i) := by
  intro l
  induction l with
  | nil => intro p i _ h2; simp at h2
  | cons a tl ih =>
      intro p i h1 h2
      cases i with
      | zero => omega
      | succ i =>
          have hi1 : i < tl.length := by simpa using h2
          cases p with
          | zero =>
              rw [aget_cons_zero, List.set_cons_succ, List.eraseIdx_cons_zero,
                List.eraseIdx_cons_succ]
              exact set_perm_cons_eraseIdx tl i a hi1
          | succ p =>
              rw [aget_cons_succ, List.set_cons_succ, List.eraseIdx_cons_succ,
                List.eraseIdx_cons_succ]
              exact (ih p i (by omega) hi1).cons a

theorem siftUpF_perm (fuel : Nat) :
    ∀ (hs : List HTree) (i : Nat) (node : HTree), i < hs.length →
      (siftUpF fuel hs i node).Perm (node :: hs.eraseIdx i) := by
  induction fuel with
  | zero => intro hs i node h; exact set_perm_cons_eraseIdx hs i node h
  | succ fuel ih =>
      intro hs i node h
      rw [siftUpF]
      split
      · rename_i hc
        have hp : (i - 1) / 2 < i := by
          have := hc.1
          omega
        refine (ih _ _ _ (by rw [List.length_set]; omega)).trans ?_
        exact (eraseIdx_set_perm hs ((i - 1) / 2) i hp h).cons node
      · exact set_perm_cons_eraseIdx hs i node h

theorem eraseIdx_append_length :
    ∀ (l : List HTree) (x : HTree), (l ++ [x]).eraseIdx l.length = l := by
  intro l x
  induction l with
  | nil => rfl
  | cons a tl ih =>
      rw [List.cons_append, List.length_cons, List.eraseIdx_cons_succ, ih]

theorem insertMinHeap_perm (hs : List HTree) (node : HTree) :
    (insertMinHeap hs node).Perm (node :: hs) := by
  rw [insertMinHeap]
  have h := siftUpF_perm (hs.length + 1) (hs ++ [node]) hs.length node (by simp)
  refine h.trans ?_
  rw [eraseIdx_append_length]

theorem buildMinHeapAux_perm (lt : HTree → HTree → Bool) :
    ∀ (i : Nat) (hs : List HTree), (buildMinHeapAux lt hs i).Perm hs := by
  intro i
  induction i with
  | zero => intro hs; exact minHeapify_perm lt hs 0
  | succ i ih =>
      intro hs
      rw [buildMinHeapAux]
      exact (ih _).trans (minHeapify_perm lt hs (i + 1))

theorem buildMinHeap_perm (lt : HTree → HTree → Bool) (hs : List HTree) :
    (buildMinHeap lt hs).Perm hs := by
  cases hs with
  | nil => exact List.Perm.refl []
  | cons a tl => exact buildMinHeapAux_perm lt _ _

theorem buildLoopF_spec (lt : HTree → HTree → Bool) (fuel : Nat) :
    ∀ (hs : List HTree) (tree : HTree),
      buildLoopF lt fuel hs = some tree →
      (∀ t ∈ hs, wellFormed t = true) →
      wellFormed tree = true ∧ (leaves tree).Perm ((hs.map leaves).flatten) := by
  induction fuel with
  | zero => intro hs tree h _; simp [buildLoopF] at h
  | succ fuel ih =>
      intro hs tree h hwf
      rw [buildLoopF] at h
      split at h
      · rename_i hlen
        cases he1 : extractMin lt hs with
        | none => rw [he1] at h; simp at h
        | some pr1 =>
            obtain ⟨left, hs1⟩ := pr1
            rw [he1] at h
            dsimp only at h
            cases he2 : extractMin lt hs1 with
            | none => rw [he2] at h; simp at h
            | some pr2 =>
                obtain ⟨right, hs2⟩ := pr2
                rw [he2] at h
                dsimp only at h
                have hperm1 := extractMin_perm lt hs left hs1 he1
                have hperm2 := extractMin_perm lt hs1 right hs2 he2
                have hsubhs1 : ∀ x ∈ hs1, x ∈ hs := fun x hx =>
                  hperm1.subset (List.mem_cons_of_mem left hx)
                have hmemleft : left ∈ hs := hperm1.subset (List.mem_cons_self left hs1)
                have hmemright : right ∈ hs :=
                  hsubhs1 right (hperm2.subset (List.mem_cons_self right hs2))
                have hwf' : ∀ t ∈ insertMinHeap hs2
                    (HTree.node 36 (left.freq + right.freq) left right),
                    wellFormed t = true := by
                  intro t ht
                  have hmem := (insertMinHeap_perm hs2 _).subset ht
                  rcases List.mem_cons.mp hmem with rfl | hmem2
                  · show ((left.freq + right.freq == left.freq + right.freq) &&
                      wellFormed left && wellFormed right) = true
                    rw [beq_self_eq_true, hwf left hmemleft, hwf right hmemright]
                    rfl
                  · exact hwf t (hsubhs1 t (hperm2.subset (List.mem_cons_of_mem right hmem2)))
                obtain ⟨hwtree, hpermtree⟩ := ih _ _ h hwf'
                refine ⟨hwtree, hpermtree.trans ?_⟩
                refine (((insertMinHeap_perm hs2 _).map leaves).flatten).trans ?_
                have e2 : (((HTree.node 36 (left.freq + right.freq) left right) :: hs2).map
                    leaves).flatten =
                    (leaves left ++ leaves right) ++ (hs2.map leaves).flatten := by
                  rw [List.map_cons, List.flatten_cons]
                  rfl
                rw [e2, List.append_assoc]
                have e3 : (leaves right ++ (hs2.map leaves).flatten).Perm
                    ((hs1.map leaves).flatten) := by
                  have e3' := (hperm2.map leaves).flatten
                  simpa only [List.map_cons, List.flatten_cons] using e3'
                refine (e3.append_left (leaves left)).trans ?_
                have e5 := (hperm1.map leaves).flatten
                simpa only [List.map_cons, List.flatten_cons] using e5
      · rename_i hlen
        cases hs with
        | nil => simp [extractMin] at h
        | cons a tl =>
            cases tl with
            | nil =>
                have hta : a = tree := by
                  with_unfolding_all exact Option.some.inj h
                subst hta
                refine ⟨hwf a (List.mem_cons_self a []), ?_⟩
                have e6 : ([a].map leaves).flatten = leaves a := by
                  rw [List.map_cons, List.map_nil, List.flatten_cons,
                    List.flatten_nil, List.append_nil]
                rw [e6]
            | cons b tl2 =>
                exfalso
                simp at hlen

theorem flatten_map_leaf :
    ∀ (ps : List (Nat × Nat)),
      ((ps.map fun p => HTree.leaf p.1 p.2).map leaves).flatten = ps := by
  intro ps
  induction ps with
  | nil => rfl
  | cons p tl ih =>
      rw [List.map_cons, List.map_cons, List.flatten_cons, ih]
      rfl

/-- Claim C8: for every frequency table with n ≥ 1 distinct symbols, the
tree returned by buildHuffmanTree satisfies: every internal node's weight
is the sum of its two children's weights (wellFormed), the multiset of its
leaf (symbol, weight) pairs is exactly the table's (symbol, frequency)
pairs — in particular every leaf's weight equals that symbol's table
frequency — and the tree has exactly n leaves. -/
theorem claim8_theorem (data freqs : List Nat) (tree : HTree)
    (hn : 1 ≤ (data.zip freqs).length)
    (hbuild : buildHuffmanTree nodeLT data freqs = some tree) :
    wellFormed tree = true ∧ (leaves tree).Perm (data.zip freqs) ∧
    (leaves tree).length = (data.zip freqs).length := by
  unfold buildHuffmanTree at hbuild
  have hwf0 : ∀ t ∈ createAndBuildMinHeap nodeLT data freqs, wellFormed t = true := by
    intro t ht
    have hp := buildMinHeap_perm nodeLT ((data.zip freqs).map fun p => HTree.leaf p.1 p.2)
    have hmem : t ∈ (data.zip freqs).map fun p => HTree.leaf p.1 p.2 := hp.subset ht
    obtain ⟨p, _, rfl⟩ := List.mem_map.mp hmem
    rfl
  obtain ⟨h1, h2⟩ := buildLoopF_spec nodeLT _ _ _ hbuild hwf0
  have hflat : ((createAndBuildMinHeap nodeLT data freqs).map leaves).flatten.Perm
      (data.zip freqs) := by
    have hp := buildMinHeap_perm nodeLT ((data.zip freqs).map fun p => HTree.leaf p.1 p.2)
    refine ((hp.map leaves).flatten).trans ?_
    rw [flatten_map_leaf]
  have hfin := h2.trans hflat
  exact ⟨h1, hfin, hfin.length_eq⟩

theorem claim8_witness :
    1 ≤ ([97, 98, 99].zip [1, 1, 4]).length ∧
    (wellFormed (HTree.node 36 6 (HTree.node 36 2 (HTree.leaf 97 1) (HTree.leaf 98 1))
        (HTree.leaf 99 4)) = true ∧
      (leaves (HTree.node 36 6 (HTree.node 36 2 (HTree.leaf 97 1) (HTree.leaf 98 1))
        (HTree.leaf 99 4))).Perm ([97, 98, 99].zip [1, 1, 4]) ∧
      (leaves (HTree.node 36 6 (HTree.node 36 2 (HTree.leaf 97 1) (HTree.leaf 98 1))
        (HTree.leaf 99 4))).length = ([97, 98, 99].zip [1, 1, 4]).length) :=
  ⟨by decide, claim8_theorem [97, 98, 99] [1, 1, 4] _ (by decide) (by decide)⟩

theorem claim4_witness :
    (HTree.leaf 98 1).freq = (HTree.leaf 97 1).freq ∧
    (HTree.leaf 97 1).data < (HTree.leaf 98 1).data ∧
    extractMin nodeLTData
        (buildMinHeap nodeLTData [HTree.leaf 98 1, HTree.leaf 97 1]) =
      some (HTree.leaf 97 1, [HTree.leaf 98 1]) :=
  ⟨by decide, by decide,
    claim4_theorem (HTree.leaf 98 1) (HTree.leaf 97 1) (by decide) (by decide)⟩

/-- Claim C3, counterexample: in the `huffman_t2_clock.c` variant two
successive `HuffmanCodes` calls on the same input `[97, 97]`, starting from
the process-start static state, produce different compressed bytes: the
first call outputs the single byte 6 (`00000110` = codes "1"+"1" for the
two 'a's, the EOF code "0", prepend-padded), the second outputs 12
(`00001100`) because the static `compressed` buffer still holds the first
call's appended EOF code at position 2 (so `strlen` sees "110" before the
new EOF append) and the static `visited` array still holds the first
traversal's marks. -/
theorem claim3_counterexample :
    (HuffmanCodesT2 [97, 97] t2Init).map Prod.fst = some [6] ∧
    ((HuffmanCodesT2 [97, 97] t2Init).bind fun r => HuffmanCodesT2 [97, 97] r.2).map
      Prod.fst = some [12] ∧
    (some [6] : Option (List Nat)) ≠ some [12] := by
  refine ⟨by decide, by decide, by decide⟩

/-- Claim C3, amended: one encode call computes its output as a function of
the input and the pre-call static state only.  In the `huffman_vlad.c`
variant the only static state is the node-arena cursor `nodeIndex`, and it
does not affect the computed output: any two completing calls on the same
input — in particular two successive calls within one process — produce
byte-identical output.  (The `huffman_t2_clock.c` variant is NOT stateless
across calls: its static `visited`, `codes` and `compressed` buffers carry
over, see the counterexample.) -/
theorem claim3_theorem (data : List Nat) (i j : Nat)
    (a b : (List Char × List Nat) × Nat)
    (ha : HuffmanCodesVlad data i = some a)
    (hb : HuffmanCodesVlad data j = some b) :
    a.1 = b.1 := by
  unfold HuffmanCodesVlad at ha hb
  dsimp only at ha hb
  split at ha
  · exact absurd ha (by simp)
  · split at hb
    · exact absurd hb (by simp)
    · cases hbuild : buildHuffmanTree nodeLT
          (uniqueSymbols 256 (calculateFrequency data fun _ => 0))
          (uniqueFreqs 256 (calculateFrequency data fun _ => 0)) with
      | none =>
          rw [hbuild] at ha
          simp at ha
      | some root =>
          rw [hbuild] at ha hb
          dsimp only at ha hb
          rw [← Option.some.inj ha, ← Option.some.inj hb]

theorem claim3_witness :
    HuffmanCodesVlad [97, 98] 0 = some ((['0', '1'], [1]), 3) ∧
    HuffmanCodesVlad [97, 98] 3 = some ((['0', '1'], [1]), 6) ∧
    (((['0', '1'], [1]), 3) : (List Char × List Nat) × Nat).1 =
      (((['0', '1'], [1]), 6) : (List Char × List Nat) × Nat).1 :=
  ⟨by decide, by decide, claim3_theorem [97, 98] 0 3 _ _ (by decide) (by decide)⟩

end HuffmanC
